import Mathlib

/-!
Shallow embedding of the refinement core of SPmerge02.py from the
scanning-drift-corr repository.  Machine floats are modelled by exact
rationals, and by reals where transcendental functions appear; numpy
arrays are modelled by functions from indices.  Python aliasing of the
mutable arrays involved in the global-phase-correlation rollback is
modelled explicitly with a two-cell heap per array.
-/

namespace SDC

/-- Candidate offsets: the columns of the dxy array in SPmerge02, namely
(0,0), (1,0), (-1,0), (0,1), (0,-1). -/
def dxy : Fin 5 → ℚ × ℚ
  | 0 => (0, 0)
  | 1 => (1, 0)
  | 2 => (-1, 0)
  | 3 => (0, 1)
  | 4 => (0, -1)

/-- Candidate origins for one scanline: the current origin plus each dxy
offset scaled by the current per-scanline step size (the orTest array in
SPmerge02). -/
def orTest (origin : ℚ × ℚ) (step : ℚ) (p : Fin 5) : ℚ × ℚ :=
  (origin.1 + (dxy p).1 * step, origin.2 + (dxy p).2 * step)

/-- First index attaining the minimum of a five-entry score vector, as
np.argmin computes it: a left fold keeping the incumbent unless a strictly
smaller score appears later. -/
def argmin5 (s : Fin 5 → ℚ) : Fin 5 :=
  List.foldl (fun best i => if s i < s best then i else best) 0 [1, 2, 3, 4]

/-- Result of committing one scanline in the candidate search. -/
structure LineUpdate where
  origin : ℚ × ℚ
  step : ℚ
  pixelsMoved : ℝ

/-- Per-scanline commit step, SPmerge02 lines 261 to 271: take the first
minimum-score candidate; on index 0 multiply the step size by
stepSizeReduce and leave the origin alone, otherwise commit the winning
candidate and add the Euclidean norm of the displacement to the
pixelsMoved accumulator. -/
noncomputable def scanlineUpdate (origin : ℚ × ℚ) (step : ℚ) (cand : Fin 5 → ℚ × ℚ)
    (score : Fin 5 → ℚ) (stepSizeReduce : ℚ) (pixelsMoved : ℝ) : LineUpdate :=
  let ind := argmin5 score
  if ind = 0 then
    ⟨origin, step * stepSizeReduce, pixelsMoved⟩
  else
    ⟨cand ind, step,
      pixelsMoved + Real.sqrt ((((cand ind).1 - origin.1 : ℚ) : ℝ) ^ 2
        + (((cand ind).2 - origin.2 : ℚ) : ℝ) ^ 2)⟩

/-- Perpendicular direction used by the ordering constraint, SPmerge02
line 212: nn = (scanDir.2, -scanDir.1). -/
def nnOf (scanDir : ℚ × ℚ) : ℚ × ℚ := (scanDir.2, -scanDir.1)

/-- Projection of an origin on the perpendicular direction (the vParam and
vTest values of SPmerge02 lines 213 and 222). -/
def vProj (nn : ℚ × ℚ) (o : ℚ × ℚ) : ℚ := nn.1 * o.1 + nn.2 * o.2

/-- Perpendicular-axis bounds for line m, SPmerge02 lines 224 to 231; a
none entry models the infinite bound (minus or plus infinity), against
which the comparison in the source is always false. -/
def vBoundOf (vParam : ℕ → ℚ) (nr m : ℕ) : Option ℚ × Option ℚ :=
  if m = 0 then (none, some (vParam (m + 1)))
  else if m = nr - 1 then (some (vParam (m - 1)), none)
  else (some (vParam (m - 1)), some (vParam (m + 1)))

/-- Test vTest < vBound[0]; false for the minus-infinity bound. -/
def belowLo (lo : Option ℚ) (v : ℚ) : Bool :=
  match lo with
  | none => false
  | some l => decide (v < l)

/-- Test vTest > vBound[1]; false for the plus-infinity bound. -/
def aboveHi (hi : Option ℚ) (v : ℚ) : Bool :=
  match hi with
  | none => false
  | some h => decide (h < v)

/-- Ordering-constraint correction of one candidate, SPmerge02 lines 234
to 238: a candidate below the lower bound is translated along nn by
(lower - vTest), one above the upper bound by (upper - vTest), all others
pass through unchanged. -/
def orderConstrain (nn : ℚ × ℚ) (lo hi : Option ℚ) (o : ℚ × ℚ) : ℚ × ℚ :=
  let vTest := vProj nn o
  if belowLo lo vTest then
    (o.1 + nn.1 * (lo.getD 0 - vTest), o.2 + nn.2 * (lo.getD 0 - vTest))
  else if aboveHi hi vTest then
    (o.1 + nn.1 * (hi.getD 0 - vTest), o.2 + nn.2 * (hi.getD 0 - vTest))
  else o

/-- Clamp as np.clip: minimum of the upper bound and the maximum of the
value with the lower bound. -/
def clip (x lo hi : ℚ) : ℚ := min (max x lo) hi

/-- Flat access into a row-major image, as image.ravel()[idx] in
calcScore. -/
def ravelGet (image : ℕ → ℕ → ℚ) (cols idx : ℕ) : ℚ :=
  image (idx / cols) (idx % cols)

/-- Embedding of the calcScore function of SPmerge02: flat ravel indices
rind1 to rind4 are x * cols + y, the four corner contributions are blended
with the fractional parts dx, dy, and the absolute deviations from the
measured intensities are summed. -/
def calcScore (image : ℕ → ℕ → ℚ) (cols n : ℕ) (xF yF : ℕ → ℕ)
    (dx dy : ℕ → ℚ) (intMeas : ℕ → ℚ) : ℚ :=
  ∑ i ∈ Finset.range n,
    |ravelGet image cols (xF i * cols + yF i) * (1 - dx i) * (1 - dy i)
      + ravelGet image cols ((xF i + 1) * cols + yF i) * dx i * (1 - dy i)
      + ravelGet image cols (xF i * cols + (yF i + 1)) * (1 - dx i) * dy i
      + ravelGet image cols ((xF i + 1) * cols + (yF i + 1)) * dx i * dy i
      - intMeas i|

/-- Clamped sample coordinate of sample i on one axis, SPmerge02 lines 244
to 249: the origin plus (i+1) times the scan direction, clipped into
[0, size - 2].  The loop index i runs over 0..nc-1, so the sample index
i+1 runs over 1..nc as inds = np.arange(1, nc+1) does. -/
def sampleCoord (size : ℕ) (o d : ℚ) (i : ℕ) : ℚ :=
  clip (o + (i + 1 : ℕ) * d) 0 ((size : ℚ) - 2)

/-- Score of one candidate origin for one scanline, SPmerge02 lines 241
to 259: clamped coordinates, integer floors, fractional parts, then
calcScore against the alignment image.  This is a pure function of its
arguments; the source lines mutate nothing. -/
def lineScore (image : ℕ → ℕ → ℚ) (isz1 isz2 nc : ℕ) (scanDir origin : ℚ × ℚ)
    (meas : ℕ → ℚ) : ℚ :=
  let xInd := fun i => sampleCoord isz1 origin.1 scanDir.1 i
  let yInd := fun i => sampleCoord isz2 origin.2 scanDir.2 i
  let xF := fun i => (⌊xInd i⌋).toNat
  let yF := fun i => (⌊yInd i⌋).toNat
  calcScore image isz2 nc xF yF
    (fun i => xInd i - xF i) (fun i => yInd i - yF i) meas

/-- Four-corner bilinear interpolation of a two-dimensional field at a
rational coordinate, written as the specification states it. -/
def bilinear2D (image : ℕ → ℕ → ℚ) (x y : ℚ) : ℚ :=
  let xF := (⌊x⌋).toNat
  let yF := (⌊y⌋).toNat
  let dx := x - xF
  let dy := y - yF
  image xF yF * (1 - dx) * (1 - dy) + image (xF + 1) yF * dx * (1 - dy)
    + image xF (yF + 1) * (1 - dx) * dy + image (xF + 1) (yF + 1) * dx * dy

/-- Score formula as claim C3 states it: the sum over samples i = 1..nc of
the absolute difference between the measured intensity and the bilinear
interpolation of the field at the clamped coordinate origin + i * scanDir. -/
def specLineScore (image : ℕ → ℕ → ℚ) (isz1 isz2 nc : ℕ)
    (scanDir origin : ℚ × ℚ) (meas : ℕ → ℚ) : ℚ :=
  ∑ i ∈ Finset.range nc,
    |bilinear2D image
        (sampleCoord isz1 origin.1 scanDir.1 i)
        (sampleCoord isz2 origin.2 scanDir.2 i)
      - meas i|

/-- Per-pixel feathering weight used for the reference image in
_global_phase_correlation, lines 373 and 374: the distance-transform value
dt is divided by densityDist, clamped at 1, and passed through the squared
sine window. -/
noncomputable def densityMaskRef (densityDist dt : ℚ) : ℝ :=
  Real.sin (((min (dt / densityDist) 1 : ℚ) : ℝ) * (Real.pi / 2)) ^ 2

/-- Per-pixel feathering weight used for every target acquisition in
_global_phase_correlation, lines 389 and 390: the distance-transform value
is divided by the literal constant 64, not by densityDist. -/
noncomputable def densityMaskTarget (dt : ℚ) : ℝ :=
  Real.sin (((min (dt / 64) 1 : ℚ) : ℝ) * (Real.pi / 2)) ^ 2

/-- Feathering weight as claim C5 states it, with the configured
densityDist as the distance scale. -/
noncomputable def specFeatherWeight (densityDist dt : ℚ) : ℝ :=
  Real.sin (Real.pi / 2 * ((min (dt / densityDist) 1 : ℚ) : ℝ)) ^ 2

/-- Feathered pixel value, lines 377, 381 and 392: blend of the
reconstructed intensity toward the scanline median with the density mask
as weight. -/
def feathered (t mask median : ℝ) : ℝ := t * mask + (1 - mask) * median

/-- Kernel half-width of the origin-smoothing kernel, _kernel_on_origin
line 333: the ceiling of three times the bandwidth. -/
def kradius (sigma : ℚ) : ℕ := (⌈3 * sigma⌉).toNat

/-- Gaussian weight of the origin-smoothing kernel at integer offset d,
_kernel_on_origin line 335. -/
noncomputable def gaussWeight (sigma : ℚ) (d : ℤ) : ℝ :=
  Real.exp (-(d : ℝ) ^ 2 / (2 * (sigma : ℚ) ^ 2))

/-- Convolution in the same mode of scipy.signal.convolve with an
odd-length symmetric kernel of half-width r: output i sums a j times the
kernel weight at offset i - j over the window of radius r, with zero
padding outside the signal. -/
noncomputable def convSame (n r : ℕ) (w : ℤ → ℝ) (a : Fin n → ℝ) : Fin n → ℝ :=
  fun i => ∑ j : Fin n,
    if ((i : ℤ) - (j : ℤ)).natAbs ≤ r then a j * w ((i : ℤ) - (j : ℤ)) else 0

/-- Boundary renormalization denominator: the same kernel convolved
against a signal of ones, _kernel_on_origin line 337 (KDEnorm is its
reciprocal). -/
noncomputable def kdeNormDen (sigma : ℚ) (n : ℕ) : Fin n → ℝ :=
  convSame n (kradius sigma) (gaussWeight sigma) (fun _ => 1)

/-- Fitted values of the least-squares line over the basis (1, j+1) used
by _kernel_on_origin lines 340 and 346 to 349.  Modelled from the
numpy.linalg.lstsq contract: for the full-rank two-column basis the
least-squares solution is unique and is given by the closed form of the
normal equations of simple linear regression. -/
noncomputable def linFit (n : ℕ) (y : Fin n → ℝ) : Fin n → ℝ :=
  let t : Fin n → ℝ := fun j => (j : ℝ) + 1
  let tbar := (∑ j : Fin n, t j) / n
  let ybar := (∑ j : Fin n, y j) / n
  let beta := (∑ j : Fin n, (t j - tbar) * (y j - ybar))
    / (∑ j : Fin n, (t j - tbar) ^ 2)
  fun j => ybar + beta * (t j - tbar)

/-- One axis of one acquisition through _kernel_on_origin, lines 340 to
358: fit the least-squares line to the sequence offset by one, subtract
it, convolve the residual with the Gaussian kernel, renormalize by the
kernel convolved against ones, and add the fit back.  The source applies
exactly this to every (image, axis) slice: the three-dimensional convolve
with a kernel of shape (1, 1, 2r+1) acts independently along the last
axis. -/
noncomputable def kernelOnOriginSeq (sigma : ℚ) (n : ℕ) (y : Fin n → ℝ) : Fin n → ℝ :=
  let L := linFit n (fun j => y j + 1)
  let resid := fun j => y j - L j
  fun i => convSame n (kradius sigma) (gaussWeight sigma) resid i
    * (1 / kdeNormDen sigma n i) + L i

/-- Guarded smoothing step as the refinement loop calls it, SPmerge02
lines 278 and 279: the kernel runs only when the bandwidth is positive. -/
noncomputable def smoothStep (sigma : ℚ) (n : ℕ) (y : Fin n → ℝ) : Fin n → ℝ :=
  if 0 < sigma then kernelOnOriginSeq sigma n y else y

/-- Observable outcome of the outer refinement loop: the loop variable at
exit, the stats array, and the number of executed iterations. -/
structure LoopOut where
  alignStep : ℕ
  stats : ℕ → ℚ × ℚ
  iters : ℕ

/-- Control skeleton of the outer while loop of SPmerge02, lines 166 to
285, with the per-iteration consistency metric and pixelsMoved totals
supplied as oracles indexed by the iteration counter alignStep (they are
computed from reconstructions produced by the external SPmakeImage
collaborator).  Each iteration records the row (alignStep-1, metric) at
index alignStep-1; the oracle gpcW tells whether the accept branch of the
global correction rewrote that row this iteration (it always rewrites the
identical value, line 438).  If pixelsMoved divided by the image count
falls below the threshold the loop variable jumps to maxSteps+1, otherwise
it increments.  The fuel argument only makes the recursion structural; the
entry point supplies maxSteps+1 units, more than the loop can consume. -/
def runRefineAux (maxSteps : ℕ) (metric pm : ℕ → ℚ) (thr nImg : ℚ)
    (gpcW : ℕ → Bool) : ℕ → ℕ → (ℕ → ℚ × ℚ) → ℕ → LoopOut
  | 0, alignStep, stats, iters => ⟨alignStep, stats, iters⟩
  | fuel + 1, alignStep, stats, iters =>
    if alignStep ≤ maxSteps then
      let row : ℚ × ℚ := (((alignStep - 1 : ℕ) : ℚ), metric alignStep)
      let stats1 := Function.update stats (alignStep - 1) row
      let stats2 := if gpcW alignStep then Function.update stats1 (alignStep - 1) row
        else stats1
      if pm alignStep / nImg < thr then
        runRefineAux maxSteps metric pm thr nImg gpcW fuel (maxSteps + 1) stats2 (iters + 1)
      else
        runRefineAux maxSteps metric pm thr nImg gpcW fuel (alignStep + 1) stats2 (iters + 1)
    else ⟨alignStep, stats, iters⟩

/-- The outer loop from its initial state: alignStep 1 and the stats array
fresh from np.zeros (line 163). -/
def runRefine (maxSteps : ℕ) (metric pm : ℕ → ℚ) (thr nImg : ℚ)
    (gpcW : ℕ → Bool) : LoopOut :=
  runRefineAux maxSteps metric pm thr nImg gpcW (maxSteps + 1) 1 (fun _ => (0, 0)) 0

/-- Stats array after the final write of SPmerge02 lines 294 to 301: one
more metric row recorded at index alignStep-1 on termination, with the
final metric supplied as an oracle. -/
def finalStats (maxSteps : ℕ) (metric pm : ℕ → ℚ) (thr nImg : ℚ)
    (gpcW : ℕ → Bool) (finalMetric : ℚ) : ℕ → ℚ × ℚ :=
  let out := runRefine maxSteps metric pm thr nImg gpcW
  Function.update out.stats (out.alignStep - 1)
    (((out.alignStep - 1 : ℕ) : ℚ), finalMetric)

/-- Default maximum number of refinement steps, SPmerge02 lines 99 and
100. -/
def refineMaxStepsDefault : ℕ := 32

/-- Heap model of the two mutable arrays handled by
_global_phase_correlation.  For each array the snapshot taken at lines 366
and 367 creates a second object: cell A is the object the caller passed in
(sm.scanOr respectively scanOrStep), cell B the copy.  The boolean
records whether the local name, after the rollback assignment of lines 442
and 443, is bound to the copy; element writes go through the current
binding.  The caller keeps observing the sm.scanOr attribute, hence the
current origin binding, but observes the step array only through its own
reference to cell A. -/
structure GPCState (Img : Type) where
  orA : ℕ → ℕ → ℚ × ℚ
  orB : ℕ → ℕ → ℚ × ℚ
  orRefB : Bool
  stepA : ℕ → ℕ → ℚ
  stepB : ℕ → ℕ → ℚ
  stepRefB : Bool
  images : ℕ → Img
  stats : ℕ → ℚ × ℚ
  reconLog : List ℕ

/-- Contents of the array currently bound to sm.scanOr. -/
def readOr {Img : Type} (st : GPCState Img) : ℕ → ℕ → ℚ × ℚ :=
  if st.orRefB then st.orB else st.orA

/-- Element write of the slice sm.scanOr[k, :, :] through the current
binding. -/
def writeOrK {Img : Type} (st : GPCState Img) (k : ℕ) (f : ℕ → ℚ × ℚ) :
    GPCState Img :=
  if st.orRefB then { st with orB := Function.update st.orB k f }
  else { st with orA := Function.update st.orA k f }

/-- Element write of the slice scanOrStep[k, :] through the current
binding. -/
def writeStepK {Img : Type} (st : GPCState Img) (k : ℕ) (f : ℕ → ℚ) :
    GPCState Img :=
  if st.stepRefB then { st with stepB := Function.update st.stepB k f }
  else { st with stepA := Function.update st.stepA k f }

/-- Origins as the caller observes them after the pass: through the
sm.scanOr attribute, which follows rebinding. -/
def callerScanOr {Img : Type} (st : GPCState Img) : ℕ → ℕ → ℚ × ℚ := readOr st

/-- Step sizes as the caller observes them after the pass: through the
array object it passed in, cell A, which a local rebinding cannot
change. -/
def callerStep {Img : Type} (st : GPCState Img) : ℕ → ℕ → ℚ :=
  fun k m => st.stepA k m

/-- Shift application for one target acquisition, _global_phase_correlation
lines 406 to 425: when the detected shift exceeds minGlobalShift and every
translated origin of acquisition k satisfies 0 <= x < rows-2 and
0 <= y < cols-2, all origins of k are translated, the image of k is
recomputed by the external SPmakeImage collaborator (recorded in
reconLog), and the step sizes of k are reset to refineInitialStep. -/
def gpcShiftApply {Img : Type} (nLines isz1 isz2 : ℕ)
    (minGlobalShift refineInitialStep : ℚ) (recon : ℕ → (ℕ → ℚ × ℚ) → Img)
    (dxdy : ℚ × ℚ) (k : ℕ) (st : GPCState Img) : GPCState Img :=
  let dx := dxdy.1
  let dy := dxdy.2
  if |dx| + |dy| > minGlobalShift then
    let cur := readOr st
    let xNew : ℕ → ℚ := fun m => (cur k m).1 + dx
    let yNew : ℕ → ℚ := fun m => (cur k m).2 + dy
    if ∀ m ∈ Finset.range nLines,
        0 ≤ xNew m ∧ xNew m < (isz1 : ℚ) - 2 ∧
        0 ≤ yNew m ∧ yNew m < (isz2 : ℚ) - 2 then
      let newOrK : ℕ → ℚ × ℚ := fun m => (xNew m, yNew m)
      let st1 := writeOrK st k newOrK
      let st2 := { st1 with images := Function.update st1.images k (recon k newOrK),
                            reconLog := st1.reconLog ++ [k] }
      writeStepK st2 k (fun _ => refineInitialStep)
    else st
  else st

/-- Regression check for one target acquisition,
_global_phase_correlation lines 427 to 443: unless increases are
tolerated, the metric is recomputed from the current images; if it
decreased below the pre-pass value the stats row of this iteration is
rewritten with the pre-pass metric, otherwise the two local names are
rebound to the snapshot copies. -/
def gpcCheck {Img : Type} (flagGlobalShiftIncrease : Bool)
    (metric : (ℕ → Img) → ℚ) (madCurrent mad : ℚ) (alignStep : ℕ)
    (st : GPCState Img) : GPCState Img :=
  if !flagGlobalShiftIncrease then
    let madNew := metric st.images
    let row : ℚ × ℚ := (((alignStep - 1 : ℕ) : ℚ), mad)
    if madNew < madCurrent then
      { st with stats := Function.update st.stats (alignStep - 1) row }
    else
      { st with orRefB := true, stepRefB := true }
  else st

/-- Targets of the correction pass, lines 379 and 383: all images when an
external reference is given, all but image 0 otherwise. -/
def vecAlignOf (useRef : Bool) (numImages : ℕ) : List ℕ :=
  if useRef then List.range numImages else (List.range numImages).drop 1

/-- The whole correction pass, _global_phase_correlation lines 361 to 443:
snapshot both arrays, then for each target acquisition apply the detected
shift and run the regression check.  The detected shift for image k is an
oracle of k alone, which is faithful because the phase correlation reads
the reference spectrum precomputed at entry and the image of slot k, and
slot k is never modified before its own turn.  The metric recomputation is
an oracle of the current images for the same reason.  Both pre-pass metric
copies (meanAbsDiff and meanAbsDiffCurrent) hold the same value mad. -/
def gpcPass {Img : Type} (nLines isz1 isz2 : ℕ)
    (minGlobalShift refineInitialStep : ℚ) (flagGlobalShiftIncrease : Bool)
    (recon : ℕ → (ℕ → ℚ × ℚ) → Img) (metric : (ℕ → Img) → ℚ)
    (shift : ℕ → ℚ × ℚ) (vecAlign : List ℕ) (scanOr0 : ℕ → ℕ → ℚ × ℚ)
    (step0 : ℕ → ℕ → ℚ) (images0 : ℕ → Img) (stats0 : ℕ → ℚ × ℚ)
    (mad : ℚ) (alignStep : ℕ) : GPCState Img :=
  let init : GPCState Img :=
    { orA := scanOr0, orB := scanOr0, orRefB := false,
      stepA := step0, stepB := step0, stepRefB := false,
      images := images0, stats := stats0, reconLog := [] }
  vecAlign.foldl (fun st k =>
    gpcCheck flagGlobalShiftIncrease metric mad mad alignStep
      (gpcShiftApply nLines isz1 isz2 minGlobalShift refineInitialStep recon
        (shift k) k st)) init

/-- Acceptance condition as claim C6 states it: the shift exceeds the
threshold and every translated origin stays within the image bounds with a
one-pixel margin on both ends of both axes, that is inside
[1, size-2]. -/
def specMarginCond (nLines isz1 isz2 : ℕ) (minGlobalShift dx dy : ℚ)
    (orK : ℕ → ℚ × ℚ) : Prop :=
  |dx| + |dy| > minGlobalShift ∧
  ∀ m ∈ Finset.range nLines,
    1 ≤ (orK m).1 + dx ∧ (orK m).1 + dx ≤ (isz1 : ℚ) - 2 ∧
    1 ≤ (orK m).2 + dy ∧ (orK m).2 + dy ≤ (isz2 : ℚ) - 2

/-- Contents of the array currently bound to the local name scanOrStep. -/
def readStep {Img : Type} (st : GPCState Img) : ℕ → ℕ → ℚ :=
  if st.stepRefB then st.stepB else st.stepA

/-- Concrete state exercising the shift application: two acquisitions of
one scanline each, all origins (2, 3), all step sizes 1, image summaries
modelled by a rational per slot. -/
def exGPCState : GPCState ℚ :=
  { orA := fun _ _ => (2, 3), orB := fun _ _ => (2, 3), orRefB := false,
    stepA := fun _ _ => 1, stepB := fun _ _ => 1, stepRefB := false,
    images := fun _ => 0, stats := fun _ => (0, 0), reconLog := [] }

/-- One concrete correction pass on two acquisitions of one scanline: a
shift (2, 0) is detected for acquisition 1 and accepted against the
bounds (origin (2,3) moves to (4,3) inside a 10 by 10 image); the metric
oracle then reports 5, above the pre-pass value 3, so the regression
check takes the rollback branch. -/
def gpcPassRejected : GPCState ℚ :=
  gpcPass 1 10 10 1 (1 / 2) false (fun _ _ => (5 : ℚ)) (fun imgs => imgs 1)
    (fun _ => (2, 0)) (vecAlignOf false 2) (fun _ _ => (2, 3)) (fun _ _ => 1)
    (fun _ => 0) (fun _ => (0, 0)) 3 1

/-- C2: in the per-scanline candidate search the selected index always
attains the minimum score, and whenever the no-shift candidate (index 0)
ties the minimum it is the one selected (np.argmin keeps the first
minimum); when index 0 wins, the step size of the scanline is multiplied
by the reduction factor and the origin is unchanged; when any other index
p wins, candidate p is committed and the Euclidean norm of the
displacement is added to the per-iteration pixelsMoved total. -/
theorem C2_scanline_commit (origin : ℚ × ℚ) (step : ℚ) (cand : Fin 5 → ℚ × ℚ)
    (score : Fin 5 → ℚ) (red : ℚ) (pmv : ℝ) :
    (∀ p, score (argmin5 score) ≤ score p) ∧
    ((∀ p, score 0 ≤ score p) → argmin5 score = 0) ∧
    (argmin5 score = 0 →
      scanlineUpdate origin step cand score red pmv = ⟨origin, step * red, pmv⟩) ∧
    (∀ p, argmin5 score = p → p ≠ 0 →
      scanlineUpdate origin step cand score red pmv =
        ⟨cand p, step, pmv + Real.sqrt ((((cand p).1 - origin.1 : ℚ) : ℝ) ^ 2
          + (((cand p).2 - origin.2 : ℚ) : ℝ) ^ 2)⟩) := by
  refine ⟨?_, ?_, ?_, ?_⟩
  · intro p
    fin_cases p <;>
      · simp only [argmin5, List.foldl]
        split_ifs <;> simp_all <;> linarith
  · intro h
    simp only [argmin5, List.foldl]
    rw [if_neg (not_lt.mpr (h 1)), if_neg (not_lt.mpr (h 2)),
      if_neg (not_lt.mpr (h 3)), if_neg (not_lt.mpr (h 4))]
  · intro h
    simp [scanlineUpdate, h]
  · intro p hp hne
    simp [scanlineUpdate, hp, hne]

/-- Witness for C2: with all five scores equal the tie goes to index 0,
the origin is unchanged and the step size halves. -/
theorem C2_scanline_commit_witness :
    argmin5 (fun _ => (2 : ℚ)) = 0 ∧
    scanlineUpdate (3, 4) (1 / 2) (orTest (3, 4) (1 / 2)) (fun _ => (2 : ℚ))
        (1 / 2) 0 = ⟨(3, 4), (1 / 2) * (1 / 2), 0⟩ := by
  refine ⟨?_, ?_⟩
  · exact (C2_scanline_commit (3, 4) (1 / 2) (orTest (3, 4) (1 / 2))
      (fun _ => 2) (1 / 2) 0).2.1 (fun p => le_refl _)
  · exact (C2_scanline_commit (3, 4) (1 / 2) (orTest (3, 4) (1 / 2))
      (fun _ => 2) (1 / 2) 0).2.2.1
      ((C2_scanline_commit (3, 4) (1 / 2) (orTest (3, 4) (1 / 2))
        (fun _ => 2) (1 / 2) 0).2.1 (fun p => le_refl _))

/-- C4: with a unit scan direction, a candidate whose perpendicular
projection violates the lower bound is translated so that its projection
equals that bound exactly, one that violates only the upper bound lands
exactly on the upper bound, a candidate whose projection already lies
within the closed interval of the two neighbour values is returned
unchanged, and the first line gets no lower bound while the last line gets
no upper bound. -/
theorem C4_order_constraint (scanDir : ℚ × ℚ) (vParam : ℕ → ℚ) (nr m : ℕ)
    (o : ℚ × ℚ) (hunit : scanDir.1 ^ 2 + scanDir.2 ^ 2 = 1) :
    (∀ l hi, vProj (nnOf scanDir) o < l →
      vProj (nnOf scanDir) (orderConstrain (nnOf scanDir) (some l) hi o) = l) ∧
    (∀ lo h, belowLo lo (vProj (nnOf scanDir) o) = false →
      h < vProj (nnOf scanDir) o →
      vProj (nnOf scanDir) (orderConstrain (nnOf scanDir) lo (some h) o) = h) ∧
    (∀ l h, l ≤ vProj (nnOf scanDir) o → vProj (nnOf scanDir) o ≤ h →
      orderConstrain (nnOf scanDir) (some l) (some h) o = o) ∧
    vBoundOf vParam nr 0 = (none, some (vParam 1)) ∧
    (2 ≤ nr → vBoundOf vParam nr (nr - 1) = (some (vParam (nr - 2)), none)) ∧
    (0 < m → m < nr - 1 →
      vBoundOf vParam nr m = (some (vParam (m - 1)), some (vParam (m + 1)))) := by
  refine ⟨?_, ?_, ?_, ?_, ?_, ?_⟩
  · intro l hi hv
    have hb : belowLo (some l) (vProj (nnOf scanDir) o) = true := by
      simp only [belowLo, decide_eq_true_eq]
      exact hv
    simp only [orderConstrain, hb, if_true, Option.getD_some]
    simp only [vProj, nnOf] at hv ⊢
    linear_combination (l - (scanDir.2 * o.1 + -scanDir.1 * o.2)) * hunit
  · intro lo h hb hv
    have ha : aboveHi (some h) (vProj (nnOf scanDir) o) = true := by
      simp only [aboveHi, decide_eq_true_eq]
      exact hv
    simp only [orderConstrain]
    rw [if_neg (by simp [hb]), if_pos ha, Option.getD_some]
    simp only [vProj, nnOf] at hv ⊢
    linear_combination (h - (scanDir.2 * o.1 + -scanDir.1 * o.2)) * hunit
  · intro l h hl hh
    have hb : belowLo (some l) (vProj (nnOf scanDir) o) = false := by
      simp only [belowLo, decide_eq_false_iff_not]
      exact not_lt.mpr hl
    have ha : aboveHi (some h) (vProj (nnOf scanDir) o) = false := by
      simp only [aboveHi, decide_eq_false_iff_not]
      exact not_lt.mpr hh
    simp only [orderConstrain]
    rw [if_neg (by simp [hb]), if_neg (by simp [ha])]
  · simp [vBoundOf]
  · intro hnr
    have h0 : ¬(nr - 1 = 0) := by omega
    rw [vBoundOf, if_neg h0, if_pos rfl]
    have h2 : nr - 1 - 1 = nr - 2 := by omega
    rw [h2]
  · intro hm0 hm1
    have h0 : ¬(m = 0) := by omega
    have h1 : ¬(m = nr - 1) := by omega
    rw [vBoundOf, if_neg h0, if_neg h1]

/-- Witness for C4 with the unit direction (3/5, 4/5): a candidate
violating the lower bound is corrected exactly onto it, an in-bounds
candidate passes unchanged, and the boundary lines lose one bound. -/
theorem C4_order_constraint_witness :
    vProj (nnOf (3 / 5, 4 / 5))
        (orderConstrain (nnOf (3 / 5, 4 / 5)) (some 7) (some 9) (0, 0)) = 7 ∧
    orderConstrain (nnOf (3 / 5, 4 / 5)) (some (-1)) (some 1) (0, 0) = (0, 0) ∧
    vBoundOf (fun _ => 5) 4 0 = (none, some 5) ∧
    vBoundOf (fun _ => 5) 4 3 = (some 5, none) := by
  have h := C4_order_constraint (3 / 5, 4 / 5) (fun _ => 5) 4 0 (0, 0) (by norm_num)
  refine ⟨?_, ?_, ?_, ?_⟩
  · exact h.1 7 (some 9) (by simp [vProj, nnOf])
  · exact h.2.2.1 (-1) 1 (by simp [vProj, nnOf]) (by simp [vProj, nnOf])
  · exact h.2.2.2.1
  · exact (C4_order_constraint (3 / 5, 4 / 5) (fun _ => 5) 4 3 (0, 0)
      (by norm_num)).2.2.2.2.1 (by norm_num)

/-- Row-major flat access at index a * cols + b recovers the
two-dimensional entry whenever the column index is in range. -/
theorem ravelGet_eq (image : ℕ → ℕ → ℚ) (cols a b : ℕ) (hb : b < cols) :
    ravelGet image cols (a * cols + b) = image a b := by
  unfold ravelGet
  have hpos : 0 < cols := lt_of_le_of_lt (Nat.zero_le b) hb
  rw [mul_comm a cols, Nat.mul_add_div hpos, Nat.mul_add_mod,
    Nat.div_eq_of_lt hb, Nat.mod_eq_of_lt hb, Nat.add_zero]

/-- The clamped sample coordinate lies in the closed interval
[0, size - 2]. -/
theorem sampleCoord_mem (size : ℕ) (hsz : 2 ≤ size) (o d : ℚ) (i : ℕ) :
    0 ≤ sampleCoord size o d i ∧ sampleCoord size o d i ≤ (size : ℚ) - 2 := by
  unfold sampleCoord clip
  constructor
  · apply le_min (le_max_right _ 0)
    have h2 : (2 : ℚ) ≤ (size : ℚ) := by exact_mod_cast hsz
    linarith
  · exact min_le_right _ _

/-- The floor of a rational bounded by size - 2, taken as a natural
number, is bounded by size - 2 in the naturals. -/
theorem floor_toNat_le (x : ℚ) (c : ℕ) (hc : 2 ≤ c) (hx : x ≤ (c : ℚ) - 2) :
    (⌊x⌋).toNat ≤ c - 2 := by
  have key : (((c - 2 : ℕ) : ℤ) : ℚ) = (c : ℚ) - 2 := by
    rw [Int.cast_natCast, Nat.cast_sub hc]
    norm_num
  have h1 : ⌊x⌋ ≤ ((c - 2 : ℕ) : ℤ) := by
    calc ⌊x⌋ ≤ ⌊(((c - 2 : ℕ) : ℤ) : ℚ)⌋ := Int.floor_le_floor (by rw [key]; exact hx)
      _ = ((c - 2 : ℕ) : ℤ) := Int.floor_intCast _
  exact Int.toNat_le.mpr h1

/-- C3: the per-candidate scanline score computed by the source (flat
ravel indices, four corner terms, absolute deviations summed) equals the
sum over samples i = 1..nc of the absolute difference between the measured
intensity and the four-corner bilinear interpolation of the reference
field at the clamped coordinate origin + i * scanDir, and under that clamp
every corner index used by the blend lies inside the field bounds.  The
embedding is a pure function of its arguments, as the source lines are:
they allocate fresh arrays and mutate none of their inputs. -/
theorem C3_line_score (image : ℕ → ℕ → ℚ) (isz1 isz2 nc : ℕ)
    (scanDir origin : ℚ × ℚ) (meas : ℕ → ℚ)
    (h1 : 2 ≤ isz1) (h2 : 2 ≤ isz2) :
    lineScore image isz1 isz2 nc scanDir origin meas
      = specLineScore image isz1 isz2 nc scanDir origin meas ∧
    ∀ i,
      (⌊sampleCoord isz1 origin.1 scanDir.1 i⌋).toNat ≤ isz1 - 2 ∧
      (⌊sampleCoord isz1 origin.1 scanDir.1 i⌋).toNat + 1 ≤ isz1 - 1 ∧
      (⌊sampleCoord isz2 origin.2 scanDir.2 i⌋).toNat ≤ isz2 - 2 ∧
      (⌊sampleCoord isz2 origin.2 scanDir.2 i⌋).toNat + 1 ≤ isz2 - 1 := by
  have bx : ∀ i, (⌊sampleCoord isz1 origin.1 scanDir.1 i⌋).toNat ≤ isz1 - 2 :=
    fun i => floor_toNat_le _ _ h1 (sampleCoord_mem isz1 h1 _ _ i).2
  have by2 : ∀ i, (⌊sampleCoord isz2 origin.2 scanDir.2 i⌋).toNat ≤ isz2 - 2 :=
    fun i => floor_toNat_le _ _ h2 (sampleCoord_mem isz2 h2 _ _ i).2
  refine ⟨?_, fun i => ⟨bx i, by have := bx i; omega, by2 i, by have := by2 i; omega⟩⟩
  simp only [lineScore, specLineScore, calcScore]
  apply Finset.sum_congr rfl
  intro i _
  have hyF : (⌊sampleCoord isz2 origin.2 scanDir.2 i⌋).toNat < isz2 := by
    have := by2 i; omega
  have hyF1 : (⌊sampleCoord isz2 origin.2 scanDir.2 i⌋).toNat + 1 < isz2 := by
    have := by2 i; omega
  rw [ravelGet_eq _ _ _ _ hyF, ravelGet_eq _ _ _ _ hyF,
    ravelGet_eq _ _ _ _ hyF1, ravelGet_eq _ _ _ _ hyF1]
  simp only [bilinear2D]

/-- Witness for C3 on a concrete 3 by 3 ramp field: the source score and
the specification formula agree and the corner bounds hold. -/
theorem C3_line_score_witness :
    lineScore (fun r c => (r : ℚ) + c) 3 3 2 (1 / 2, 1 / 2) (0, 0) (fun _ => 1)
      = specLineScore (fun r c => (r : ℚ) + c) 3 3 2 (1 / 2, 1 / 2) (0, 0)
        (fun _ => 1) ∧
    (⌊sampleCoord 3 (0 : ℚ) (1 / 2) 0⌋).toNat ≤ 3 - 2 := by
  have h := C3_line_score (fun r c => (r : ℚ) + c) 3 3 2 (1 / 2, 1 / 2) (0, 0)
    (fun _ => 1) (by norm_num) (by norm_num)
  exact ⟨h.1, (h.2 0).1⟩

/-- C5 as stated is false at a concrete input: with densityDist 2 and a
distance-transform value of 4 the claimed weight saturates at 1, but the
code divides the target distance by the literal 64 and produces the
squared sine of pi over 32, which is strictly below 1. -/
theorem C5_counterexample : densityMaskTarget 4 ≠ specFeatherWeight 2 4 := by
  have hpi := Real.pi_pos
  have h164 : ((min (4 / 64 : ℚ) 1 : ℚ) : ℝ) = 1 / 16 := by norm_num
  have h12 : ((min (4 / 2 : ℚ) 1 : ℚ) : ℝ) = 1 := by norm_num
  unfold densityMaskTarget specFeatherWeight
  rw [h164, h12, mul_one, Real.sin_pi_div_two]
  have harg : (1 / 16 : ℝ) * (Real.pi / 2) = Real.pi / 32 := by ring
  rw [harg, one_pow]
  have hmem1 : Real.pi / 32 ∈ Set.Icc (-(Real.pi / 2)) (Real.pi / 2) := by
    constructor <;> nlinarith
  have hmem2 : Real.pi / 2 ∈ Set.Icc (-(Real.pi / 2)) (Real.pi / 2) := by
    constructor <;> nlinarith
  have hlt : Real.sin (Real.pi / 32) < 1 := by
    have h := Real.strictMonoOn_sin hmem1 hmem2 (by nlinarith)
    rwa [Real.sin_pi_div_two] at h
  have hpos : 0 < Real.sin (Real.pi / 32) :=
    Real.sin_pos_of_pos_of_lt_pi (by nlinarith) (by nlinarith)
  have hsq : Real.sin (Real.pi / 32) ^ 2 < 1 := by nlinarith
  exact ne_of_lt hsq

/-- C5 amended: low-coverage pixels are blended toward the scanline
median with the squared sine window of the clamped scaled distance, but
the distance scale is densityDist only for the reference image; every
target acquisition divides the distance transform by the literal constant
64 instead. -/
theorem C5_feather_amended (densityDist dt : ℚ) (t median : ℝ) :
    densityMaskRef densityDist dt = specFeatherWeight densityDist dt ∧
    densityMaskTarget dt = specFeatherWeight 64 dt ∧
    densityMaskTarget dt = densityMaskRef 64 dt ∧
    feathered t (densityMaskRef densityDist dt) median
      = t * densityMaskRef densityDist dt
        + (1 - densityMaskRef densityDist dt) * median := by
  refine ⟨?_, ?_, rfl, rfl⟩
  · unfold densityMaskRef specFeatherWeight
    rw [mul_comm]
  · unfold densityMaskTarget specFeatherWeight
    rw [mul_comm]

/-- The Gaussian weight is positive at every offset. -/
theorem gaussWeight_pos (sigma : ℚ) (d : ℤ) : 0 < gaussWeight sigma d :=
  Real.exp_pos _

/-- The boundary renormalization denominator is positive: the window
always contains the central weight. -/
theorem kdeNormDen_pos (sigma : ℚ) (n : ℕ) (i : Fin n) :
    0 < kdeNormDen sigma n i := by
  unfold kdeNormDen convSame
  apply Finset.sum_pos'
  · intro j _
    split
    · have h := gaussWeight_pos sigma ((i : ℤ) - (j : ℤ))
      simpa using le_of_lt h
    · exact le_refl 0
  · refine ⟨i, Finset.mem_univ i, ?_⟩
    rw [sub_self, if_pos (by simp)]
    simpa using gaussWeight_pos sigma 0

/-- Convolving a constant signal equals the constant times the
convolution of the all-ones signal. -/
theorem convSame_const (n r : ℕ) (w : ℤ → ℝ) (c : ℝ) (i : Fin n) :
    convSame n r w (fun _ => c) i = c * convSame n r w (fun _ => 1) i := by
  unfold convSame
  rw [Finset.mul_sum]
  apply Finset.sum_congr rfl
  intro j _
  split
  · ring
  · ring

/-- A sum of squared deviations of the sample points j+1 from any common
value is positive once there are at least two points. -/
theorem sumSqDev_pos (n : ℕ) (hn : 2 ≤ n) (c : ℝ) :
    0 < ∑ k : Fin n, (((k : ℝ) + 1) - c) ^ 2 := by
  by_contra hcon
  push_neg at hcon
  have hz : ∑ k : Fin n, (((k : ℝ) + 1) - c) ^ 2 = 0 :=
    le_antisymm hcon (Finset.sum_nonneg fun k _ => sq_nonneg _)
  have hall := (Finset.sum_eq_zero_iff_of_nonneg fun k _ => sq_nonneg _).mp hz
  have h0 := sq_eq_zero_iff.mp (hall ⟨0, by omega⟩ (Finset.mem_univ _))
  have h1 := sq_eq_zero_iff.mp (hall ⟨1, by omega⟩ (Finset.mem_univ _))
  simp at h0 h1
  linarith

/-- The least-squares line through exactly affine data reproduces the
data: fitted values coincide with the input. -/
theorem linFit_affine (n : ℕ) (hn : 2 ≤ n) (a b : ℝ) :
    linFit n (fun k : Fin n => a + b * ((k : ℝ) + 1))
      = fun k : Fin n => a + b * ((k : ℝ) + 1) := by
  have hnR : (0 : ℝ) < n := by
    have h : 0 < n := by omega
    exact_mod_cast h
  have hn0 : (n : ℝ) ≠ 0 := ne_of_gt hnR
  funext j
  simp only [linFit]
  set S := ∑ k : Fin n, ((k : ℝ) + 1) with hS
  have hybar : (∑ k : Fin n, (a + b * ((k : ℝ) + 1))) / (n : ℝ) = a + b * (S / n) := by
    rw [Finset.sum_add_distrib, Finset.sum_const, Finset.card_univ, Fintype.card_fin,
      ← Finset.mul_sum, ← hS]
    field_simp
    ring
  rw [hybar]
  have hSxx := sumSqDev_pos n hn (S / n)
  have hnum : (∑ k : Fin n, (((k : ℝ) + 1) - S / n)
        * ((a + b * ((k : ℝ) + 1)) - (a + b * (S / n))))
      = b * ∑ k : Fin n, (((k : ℝ) + 1) - S / n) ^ 2 := by
    rw [Finset.mul_sum]
    apply Finset.sum_congr rfl
    intro k _
    ring
  rw [hnum, mul_div_assoc, div_self (ne_of_gt hSxx), mul_one]
  ring

/-- C7: the origin-smoothing kernel is the identity on exactly affine
origin sequences: detrending leaves a constant residual (the offset of one
added before the fit), the renormalized Gaussian moving average maps a
constant signal to itself, and re-adding the trend recovers the input; and
with bandwidth 0 the smoothing step is not applied at all.  Over exact
rationals and reals the identity is exact, which implies the claimed
floating-point-tolerance version. -/
theorem C7_origin_smoothing :
    (∀ (sigma : ℚ) (n : ℕ) (y : Fin n → ℝ) (a b : ℝ), 0 < sigma → 2 ≤ n →
      (∀ j : Fin n, y j = a + b * (j : ℝ)) → smoothStep sigma n y = y) ∧
    (∀ (n : ℕ) (y : Fin n → ℝ), smoothStep 0 n y = y) := by
  constructor
  · intro sigma n y a b hsig hn hy
    unfold smoothStep
    rw [if_pos hsig]
    have hform : (fun j : Fin n => y j + 1)
        = fun k : Fin n => (a + 1 - b) + b * ((k : ℝ) + 1) := by
      funext k
      rw [hy k]
      ring
    have hL : linFit n (fun j : Fin n => y j + 1) = fun j : Fin n => y j + 1 := by
      rw [hform, linFit_affine n hn (a + 1 - b) b, ← hform]
    unfold kernelOnOriginSeq
    rw [hL]
    funext i
    have hres : (fun j : Fin n => y j - (y j + 1)) = fun _ : Fin n => (-1 : ℝ) := by
      funext k
      ring
    rw [hres, convSame_const]
    have hfold : convSame n (kradius sigma) (gaussWeight sigma) (fun _ => (1 : ℝ)) i
        = kdeNormDen sigma n i := rfl
    rw [hfold]
    have hden : kdeNormDen sigma n i ≠ 0 := ne_of_gt (kdeNormDen_pos sigma n i)
    field_simp
  · intro n y
    unfold smoothStep
    rw [if_neg (by norm_num)]

/-- Witness for C7 at the affine sequence j on two lines with bandwidth 1,
and the disabled case at bandwidth 0. -/
theorem C7_origin_smoothing_witness :
    smoothStep 1 2 (fun j : Fin 2 => (j : ℝ)) = (fun j : Fin 2 => (j : ℝ)) ∧
    smoothStep 0 2 (fun j : Fin 2 => (j : ℝ)) = (fun j : Fin 2 => (j : ℝ)) := by
  refine ⟨?_, C7_origin_smoothing.2 2 _⟩
  exact C7_origin_smoothing.1 1 2 (fun j : Fin 2 => (j : ℝ)) 0 1 (by norm_num)
    (by norm_num) (fun j => by ring)

/-- Once the loop variable passes maxSteps the loop returns its state
unchanged, whatever fuel remains. -/
theorem runRefineAux_stop (maxSteps : ℕ) (metric pm : ℕ → ℚ) (thr nImg : ℚ)
    (gpcW : ℕ → Bool) (fuel a it : ℕ) (stats : ℕ → ℚ × ℚ) (h : maxSteps < a) :
    runRefineAux maxSteps metric pm thr nImg gpcW fuel a stats it
      = ⟨a, stats, it⟩ := by
  cases fuel with
  | zero => rfl
  | succ f =>
    simp only [runRefineAux]
    rw [if_neg (by omega)]

/-- The iteration counter never decreases through the loop. -/
theorem runRefineAux_iters_le (maxSteps : ℕ) (metric pm : ℕ → ℚ) (thr nImg : ℚ)
    (gpcW : ℕ → Bool) :
    ∀ (fuel a it : ℕ) (stats : ℕ → ℚ × ℚ),
      it ≤ (runRefineAux maxSteps metric pm thr nImg gpcW fuel a stats it).iters := by
  intro fuel
  induction fuel with
  | zero => intro a it stats; exact Nat.le_refl it
  | succ f ih =>
    intro a it stats
    by_cases hga : a ≤ maxSteps
    · simp only [runRefineAux]
      rw [if_pos hga]
      split
      · exact le_trans (Nat.le_succ it) (ih _ _ _)
      · exact le_trans (Nat.le_succ it) (ih _ _ _)
    · rw [runRefineAux_stop maxSteps metric pm thr nImg gpcW _ _ _ _ (by omega)]

/-- The loop executes at most maxSteps + 1 - a further iterations from
loop variable a. -/
theorem runRefineAux_iters_bound (maxSteps : ℕ) (metric pm : ℕ → ℚ) (thr nImg : ℚ)
    (gpcW : ℕ → Bool) :
    ∀ (fuel a it : ℕ) (stats : ℕ → ℚ × ℚ),
      (runRefineAux maxSteps metric pm thr nImg gpcW fuel a stats it).iters
        ≤ it + (maxSteps + 1 - a) := by
  intro fuel
  induction fuel with
  | zero => intro a it stats; exact Nat.le_add_right it _
  | succ f ih =>
    intro a it stats
    by_cases hga : a ≤ maxSteps
    · simp only [runRefineAux]
      rw [if_pos hga]
      split
      · exact le_trans (ih _ _ _) (by omega)
      · exact le_trans (ih _ _ _) (by omega)
    · rw [runRefineAux_stop maxSteps metric pm thr nImg gpcW _ _ _ _ (by omega)]
      exact Nat.le_add_right it _

/-- With enough fuel the loop always exits with the loop variable equal to
maxSteps + 1, whether it stops early or runs out of steps. -/
theorem runRefineAux_exit (maxSteps : ℕ) (metric pm : ℕ → ℚ) (thr nImg : ℚ)
    (gpcW : ℕ → Bool) :
    ∀ (fuel a it : ℕ) (stats : ℕ → ℚ × ℚ), a ≤ maxSteps + 1 →
      maxSteps + 1 - a ≤ fuel →
      (runRefineAux maxSteps metric pm thr nImg gpcW fuel a stats it).alignStep
        = maxSteps + 1 := by
  intro fuel
  induction fuel with
  | zero =>
    intro a it stats ha hfuel
    have hae : a = maxSteps + 1 := by omega
    subst hae
    rfl
  | succ f ih =>
    intro a it stats ha hfuel
    by_cases hga : a ≤ maxSteps
    · simp only [runRefineAux]
      rw [if_pos hga]
      split
      · exact ih _ _ _ (by omega) (by omega)
      · exact ih _ _ _ (by omega) (by omega)
    · have hae : a = maxSteps + 1 := by omega
      rw [runRefineAux_stop maxSteps metric pm thr nImg gpcW _ _ _ _ (by omega)]
      exact hae

/-- If the per-iteration movement first drops below the threshold at
iteration t, the loop performs exactly the iterations up to and including
t. -/
theorem runRefineAux_early (maxSteps : ℕ) (metric pm : ℕ → ℚ) (thr nImg : ℚ)
    (gpcW : ℕ → Bool) :
    ∀ (fuel a it : ℕ) (stats : ℕ → ℚ × ℚ) (t : ℕ), a ≤ t → t ≤ maxSteps →
      (∀ s, a ≤ s → s < t → ¬(pm s / nImg < thr)) → pm t / nImg < thr →
      maxSteps + 1 - a ≤ fuel →
      (runRefineAux maxSteps metric pm thr nImg gpcW fuel a stats it).iters
        = it + (t - a) + 1 := by
  intro fuel
  induction fuel with
  | zero =>
    intro a it stats t hat htm hprev hcond hfuel
    omega
  | succ f ih =>
    intro a it stats t hat htm hprev hcond hfuel
    have hga : a ≤ maxSteps := le_trans hat htm
    simp only [runRefineAux]
    rw [if_pos hga]
    by_cases hae : a = t
    · subst hae
      rw [if_pos hcond,
        runRefineAux_stop maxSteps metric pm thr nImg gpcW _ _ _ _ (by omega)]
      show it + 1 = it + (a - a) + 1
      omega
    · have hlt : a < t := lt_of_le_of_ne hat hae
      rw [if_neg (hprev a (le_refl a) hlt)]
      rw [ih (a + 1) (it + 1) _ t (by omega) htm
        (fun s hs hst => hprev s (by omega) hst) hcond (by omega)]
      omega

/-- If the movement never drops below the threshold the loop runs all its
remaining iterations. -/
theorem runRefineAux_full (maxSteps : ℕ) (metric pm : ℕ → ℚ) (thr nImg : ℚ)
    (gpcW : ℕ → Bool) :
    ∀ (fuel a it : ℕ) (stats : ℕ → ℚ × ℚ), (∀ s, ¬(pm s / nImg < thr)) →
      a ≤ maxSteps + 1 → maxSteps + 1 - a ≤ fuel →
      (runRefineAux maxSteps metric pm thr nImg gpcW fuel a stats it).iters
        = it + (maxSteps + 1 - a) := by
  intro fuel
  induction fuel with
  | zero =>
    intro a it stats hnever ha hfuel
    have hae : a = maxSteps + 1 := by omega
    subst hae
    show it = it + (maxSteps + 1 - (maxSteps + 1))
    omega
  | succ f ih =>
    intro a it stats hnever ha hfuel
    by_cases hga : a ≤ maxSteps
    · simp only [runRefineAux]
      rw [if_pos hga, if_neg (hnever a)]
      rw [ih (a + 1) (it + 1) _ hnever (by omega) (by omega)]
      omega
    · have hae : a = maxSteps + 1 := by omega
      rw [runRefineAux_stop maxSteps metric pm thr nImg gpcW _ _ _ _ (by omega)]
      show it = it + (maxSteps + 1 - a)
      omega

/-- Characterization of the stats array through the loop: starting from
loop variable a, consecutive rows from index a-1 on, one per executed
iteration, hold the recorded metric rows; every other entry keeps its
incoming value.  In particular a row once recorded is never changed
afterwards. -/
theorem runRefineAux_stats (maxSteps : ℕ) (metric pm : ℕ → ℚ) (thr nImg : ℚ)
    (gpcW : ℕ → Bool) :
    ∀ (fuel a it : ℕ) (stats : ℕ → ℚ × ℚ), 1 ≤ a → maxSteps + 1 - a ≤ fuel →
      ∀ i : ℕ,
        (runRefineAux maxSteps metric pm thr nImg gpcW fuel a stats it).stats i
          = if a - 1 ≤ i ∧ i < a - 1
              + ((runRefineAux maxSteps metric pm thr nImg gpcW fuel a stats it).iters - it)
            then ((i : ℚ), metric (i + 1)) else stats i := by
  intro fuel
  induction fuel with
  | zero =>
    intro a it stats ha hfuel i
    simp only [runRefineAux]
    rw [if_neg (by omega)]
  | succ f ih =>
    intro a it stats ha hfuel i
    by_cases hga : a ≤ maxSteps
    · simp only [runRefineAux]
      rw [if_pos hga]
      have hS2 : (if gpcW a = true then
            Function.update (Function.update stats (a - 1) (((a - 1 : ℕ) : ℚ), metric a))
              (a - 1) (((a - 1 : ℕ) : ℚ), metric a)
          else Function.update stats (a - 1) (((a - 1 : ℕ) : ℚ), metric a))
          = Function.update stats (a - 1) (((a - 1 : ℕ) : ℚ), metric a) := by
        split
        · rw [Function.update_idem]
        · rfl
      rw [hS2]
      by_cases hc : pm a / nImg < thr
      · rw [if_pos hc,
          runRefineAux_stop maxSteps metric pm thr nImg gpcW _ _ _ _ (by omega)]
        dsimp only
        by_cases hi : i = a - 1
        · subst hi
          rw [Function.update_same, if_pos (by omega)]
          have h1 : a - 1 + 1 = a := by omega
          rw [h1]
        · rw [Function.update_noteq hi, if_neg (by omega)]
      · rw [if_neg hc]
        have hmono := runRefineAux_iters_le maxSteps metric pm thr nImg gpcW f (a + 1)
          (it + 1) (Function.update stats (a - 1) (((a - 1 : ℕ) : ℚ), metric a))
        rw [ih (a + 1) (it + 1) _ (by omega) (by omega) i]
        set X := (runRefineAux maxSteps metric pm thr nImg gpcW f (a + 1)
          (Function.update stats (a - 1) (((a - 1 : ℕ) : ℚ), metric a)) (it + 1)).iters
          with hX
        by_cases hi1 : i < a - 1
        · rw [if_neg (by omega), if_neg (by omega), Function.update_noteq (by omega)]
        · by_cases hi2 : i = a - 1
          · subst hi2
            rw [if_neg (by omega), Function.update_same, if_pos (by omega)]
            have h1 : a - 1 + 1 = a := by omega
            rw [h1]
          · by_cases hi3 : i < a - 1 + (X - it)
            · rw [if_pos (by omega), if_pos (by omega)]
            · rw [if_neg (by omega), if_neg (by omega),
                Function.update_noteq (by omega)]
    · rw [runRefineAux_stop maxSteps metric pm thr nImg gpcW _ _ _ _ (by omega)]
      dsimp only
      rw [if_neg (by omega)]

/-- C8: the refinement loop always terminates: it executes at most
maxSteps outer iterations; it stops at the first iteration whose
pixelsMoved per image falls below the threshold, so an arbitrarily high
threshold gives exactly one iteration; a threshold never reached (for
instance 0 with positive movement) gives exactly maxSteps iterations; and
the default cap is 32 iterations. -/
theorem C8_termination (maxSteps : ℕ) (metric pm : ℕ → ℚ) (thr nImg : ℚ)
    (gpcW : ℕ → Bool) (hms : 1 ≤ maxSteps) :
    (runRefine maxSteps metric pm thr nImg gpcW).iters ≤ maxSteps ∧
    (pm 1 / nImg < thr → (runRefine maxSteps metric pm thr nImg gpcW).iters = 1) ∧
    (∀ t, 1 ≤ t → t ≤ maxSteps → (∀ s, 1 ≤ s → s < t → ¬(pm s / nImg < thr)) →
      pm t / nImg < thr → (runRefine maxSteps metric pm thr nImg gpcW).iters = t) ∧
    ((∀ s, ¬(pm s / nImg < thr)) →
      (runRefine maxSteps metric pm thr nImg gpcW).iters = maxSteps) ∧
    (runRefine refineMaxStepsDefault metric pm thr nImg gpcW).iters
      ≤ refineMaxStepsDefault := by
  refine ⟨?_, ?_, ?_, ?_, ?_⟩
  · have h := runRefineAux_iters_bound maxSteps metric pm thr nImg gpcW
      (maxSteps + 1) 1 0 (fun _ => (0, 0))
    unfold runRefine
    omega
  · intro hc
    have h := runRefineAux_early maxSteps metric pm thr nImg gpcW
      (maxSteps + 1) 1 0 (fun _ => (0, 0)) 1 (le_refl 1) hms
      (fun s hs hst => absurd hst (by omega)) hc (by omega)
    unfold runRefine
    omega
  · intro t ht1 htm hprev hc
    have h := runRefineAux_early maxSteps metric pm thr nImg gpcW
      (maxSteps + 1) 1 0 (fun _ => (0, 0)) t ht1 htm
      (fun s hs hst => hprev s hs hst) hc (by omega)
    unfold runRefine
    omega
  · intro hnever
    have h := runRefineAux_full maxSteps metric pm thr nImg gpcW
      (maxSteps + 1) 1 0 (fun _ => (0, 0)) hnever (by omega) (by omega)
    unfold runRefine
    omega
  · have h := runRefineAux_iters_bound refineMaxStepsDefault metric pm thr nImg gpcW
      (refineMaxStepsDefault + 1) 1 0 (fun _ => (0, 0))
    unfold runRefine
    omega

/-- Witness for C8: with a high threshold the loop stops after one
iteration, with threshold 0 and unit movement it runs both of its two
allowed iterations. -/
theorem C8_termination_witness :
    (runRefine 2 (fun _ => 0) (fun _ => 1) 10 1 (fun _ => false)).iters = 1 ∧
    (runRefine 2 (fun _ => 0) (fun _ => 1) 0 1 (fun _ => false)).iters = 2 := by
  constructor
  · exact (C8_termination 2 (fun _ => 0) (fun _ => 1) 10 1 (fun _ => false)
      (by norm_num)).2.1 (by norm_num)
  · exact (C8_termination 2 (fun _ => 0) (fun _ => 1) 0 1 (fun _ => false)
      (by norm_num)).2.2.2.1 (fun s => by norm_num)

/-- C9: the stats history after a run holds exactly one row (i, metric)
for each completed outer iteration i+1, written at index i and never
altered afterwards, one final metric row at index maxSteps written on
termination, and untouched zero rows in between; nothing recorded is
removed or overwritten. -/
theorem C9_stats_history (maxSteps : ℕ) (metric pm : ℕ → ℚ) (thr nImg : ℚ)
    (gpcW : ℕ → Bool) (finalMetric : ℚ) (hms : 1 ≤ maxSteps) :
    (∀ i, i < (runRefine maxSteps metric pm thr nImg gpcW).iters →
      finalStats maxSteps metric pm thr nImg gpcW finalMetric i
        = ((i : ℚ), metric (i + 1))) ∧
    finalStats maxSteps metric pm thr nImg gpcW finalMetric maxSteps
      = ((maxSteps : ℚ), finalMetric) ∧
    (∀ i, (runRefine maxSteps metric pm thr nImg gpcW).iters ≤ i → i < maxSteps →
      finalStats maxSteps metric pm thr nImg gpcW finalMetric i = (0, 0)) := by
  have hexit : (runRefine maxSteps metric pm thr nImg gpcW).alignStep = maxSteps + 1 :=
    runRefineAux_exit maxSteps metric pm thr nImg gpcW (maxSteps + 1) 1 0
      (fun _ => (0, 0)) (by omega) (by omega)
  have hbound : (runRefine maxSteps metric pm thr nImg gpcW).iters ≤ maxSteps := by
    have h := runRefineAux_iters_bound maxSteps metric pm thr nImg gpcW
      (maxSteps + 1) 1 0 (fun _ => (0, 0))
    unfold runRefine
    omega
  have hstats : ∀ i : ℕ, (runRefine maxSteps metric pm thr nImg gpcW).stats i
      = if 1 - 1 ≤ i ∧ i < 1 - 1 + ((runRefine maxSteps metric pm thr nImg gpcW).iters - 0)
        then ((i : ℚ), metric (i + 1)) else (fun _ => ((0 : ℚ), (0 : ℚ))) i :=
    fun i => runRefineAux_stats maxSteps metric pm thr nImg gpcW (maxSteps + 1) 1 0
      (fun _ => (0, 0)) (le_refl 1) (by omega) i
  refine ⟨?_, ?_, ?_⟩
  · intro i hi
    simp only [finalStats]
    rw [hexit, Function.update_noteq (by omega)]
    rw [hstats i, if_pos ⟨by omega, by omega⟩]
  · simp only [finalStats]
    rw [hexit, Nat.add_sub_cancel, Function.update_same]
  · intro i hlo hhi
    simp only [finalStats]
    rw [hexit, Function.update_noteq (by omega)]
    rw [hstats i, if_neg (by omega)]

/-- Witness for C9 on a two-step run that never stops early: row 0 holds
the first-iteration metric and the final row holds the final metric. -/
theorem C9_stats_history_witness :
    finalStats 2 (fun t => (t : ℚ)) (fun _ => 1) 0 1 (fun _ => false) 7 0
      = ((0 : ℚ), (1 : ℚ)) ∧
    finalStats 2 (fun t => (t : ℚ)) (fun _ => 1) 0 1 (fun _ => false) 7 2
      = ((2 : ℚ), (7 : ℚ)) := by
  have hit : (runRefine 2 (fun t => (t : ℚ)) (fun _ => 1) 0 1 (fun _ => false)).iters = 2 := by
    have h2 := runRefineAux_full 2 (fun t => (t : ℚ)) (fun _ => 1) 0 1 (fun _ => false)
      (2 + 1) 1 0 (fun _ => (0, 0)) (fun s => by norm_num) (by omega) (by omega)
    unfold runRefine
    omega
  have h := C9_stats_history 2 (fun t => (t : ℚ)) (fun _ => 1) 0 1 (fun _ => false) 7
    (by norm_num)
  constructor
  · have h0 := h.1 0 (by omega)
    simpa using h0
  · have h2 := h.2.1
    simpa using h2

/-- Writing the slice k through the current origin binding updates the
contents seen through that binding at k. -/
theorem readOr_writeOrK {Img : Type} (st : GPCState Img) (k : ℕ) (f : ℕ → ℚ × ℚ) :
    readOr (writeOrK st k f) = Function.update (readOr st) k f := by
  unfold readOr writeOrK
  by_cases h : st.orRefB <;> simp [h]

/-- Step writes do not touch the origin cells or binding. -/
theorem readOr_writeStepK {Img : Type} (st : GPCState Img) (k : ℕ) (g : ℕ → ℚ) :
    readOr (writeStepK st k g) = readOr st := by
  unfold readOr writeStepK
  by_cases h : st.stepRefB <;> simp [h]

/-- Writing the slice k through the current step binding updates the
contents seen through that binding at k. -/
theorem readStep_writeStepK {Img : Type} (st : GPCState Img) (k : ℕ) (g : ℕ → ℚ) :
    readStep (writeStepK st k g) = Function.update (readStep st) k g := by
  unfold readStep writeStepK
  by_cases h : st.stepRefB <;> simp [h]

/-- Origin writes do not touch the step cells or binding. -/
theorem readStep_writeOrK {Img : Type} (st : GPCState Img) (k : ℕ) (f : ℕ → ℚ × ℚ) :
    readStep (writeOrK st k f) = readStep st := by
  unfold readStep writeOrK
  by_cases h : st.orRefB <;> simp [h]

/-- When both the threshold test and the boundary test pass, the
shift-application step rewrites to its three effects: origin slice write,
image reconstruction with log entry, step-size reset. -/
theorem gpcShiftApply_applied {Img : Type} (nLines isz1 isz2 : ℕ)
    (minGS rIS : ℚ) (recon : ℕ → (ℕ → ℚ × ℚ) → Img) (dx dy : ℚ) (k : ℕ)
    (st : GPCState Img)
    (h1 : |dx| + |dy| > minGS)
    (h2 : ∀ m ∈ Finset.range nLines,
      0 ≤ (readOr st k m).1 + dx ∧ (readOr st k m).1 + dx < (isz1 : ℚ) - 2 ∧
      0 ≤ (readOr st k m).2 + dy ∧ (readOr st k m).2 + dy < (isz2 : ℚ) - 2) :
    gpcShiftApply nLines isz1 isz2 minGS rIS recon (dx, dy) k st
      = writeStepK { writeOrK st k
            (fun m => ((readOr st k m).1 + dx, (readOr st k m).2 + dy)) with
          images := Function.update st.images k
            (recon k (fun m => ((readOr st k m).1 + dx, (readOr st k m).2 + dy))),
          reconLog := st.reconLog ++ [k] } k (fun _ => rIS) := by
  have himg : (writeOrK st k
      (fun m => ((readOr st k m).1 + dx, (readOr st k m).2 + dy))).images
      = st.images := by
    unfold writeOrK
    by_cases h : st.orRefB <;> simp [h]
  have hlog : (writeOrK st k
      (fun m => ((readOr st k m).1 + dx, (readOr st k m).2 + dy))).reconLog
      = st.reconLog := by
    unfold writeOrK
    by_cases h : st.orRefB <;> simp [h]
  simp only [gpcShiftApply]
  dsimp only
  rw [if_pos h1, if_pos h2, himg, hlog]

/-- When the recomputed metric did not decrease, the regression check
rebinds both local names to the snapshot copies and changes nothing
else. -/
theorem gpcCheck_reject {Img : Type} (metric : (ℕ → Img) → ℚ)
    (madCurrent mad : ℚ) (alignStep : ℕ) (st : GPCState Img)
    (hrej : ¬(metric st.images < madCurrent)) :
    gpcCheck false metric madCurrent mad alignStep st
      = { st with orRefB := true, stepRefB := true } := by
  simp only [gpcCheck, Bool.not_false, if_true]
  rw [if_neg hrej]

/-- C6 amended: the shift is applied to acquisition k exactly when
|dx| + |dy| exceeds the threshold and every translated origin satisfies
0 <= x < rows - 2 and 0 <= y < cols - 2 (no margin at the lower end and a
strict two-pixel bound at the upper end, not a one-pixel margin on both
ends); on application all origins of k are translated uniformly, the
acquisition is reconstructed from the translated origins, and its step
sizes are reset to the initial refinement step; otherwise the state is
unchanged. -/
theorem C6_shift_apply_amended {Img : Type} (nLines isz1 isz2 : ℕ)
    (minGS rIS : ℚ) (recon : ℕ → (ℕ → ℚ × ℚ) → Img) (dx dy : ℚ) (k : ℕ)
    (st : GPCState Img) :
    (((|dx| + |dy| > minGS) ∧ ∀ m ∈ Finset.range nLines,
        0 ≤ (readOr st k m).1 + dx ∧ (readOr st k m).1 + dx < (isz1 : ℚ) - 2 ∧
        0 ≤ (readOr st k m).2 + dy ∧ (readOr st k m).2 + dy < (isz2 : ℚ) - 2) →
      (readOr (gpcShiftApply nLines isz1 isz2 minGS rIS recon (dx, dy) k st) k
          = fun m => ((readOr st k m).1 + dx, (readOr st k m).2 + dy)) ∧
      (∀ j, j ≠ k →
        readOr (gpcShiftApply nLines isz1 isz2 minGS rIS recon (dx, dy) k st) j
          = readOr st j) ∧
      (gpcShiftApply nLines isz1 isz2 minGS rIS recon (dx, dy) k st).images
          = Function.update st.images k
              (recon k (fun m => ((readOr st k m).1 + dx, (readOr st k m).2 + dy))) ∧
      (gpcShiftApply nLines isz1 isz2 minGS rIS recon (dx, dy) k st).reconLog
          = st.reconLog ++ [k] ∧
      readStep (gpcShiftApply nLines isz1 isz2 minGS rIS recon (dx, dy) k st) k
          = fun _ => rIS) ∧
    ((¬((|dx| + |dy| > minGS) ∧ ∀ m ∈ Finset.range nLines,
        0 ≤ (readOr st k m).1 + dx ∧ (readOr st k m).1 + dx < (isz1 : ℚ) - 2 ∧
        0 ≤ (readOr st k m).2 + dy ∧ (readOr st k m).2 + dy < (isz2 : ℚ) - 2)) →
      gpcShiftApply nLines isz1 isz2 minGS rIS recon (dx, dy) k st = st) := by
  constructor
  · rintro ⟨h1, h2⟩
    rw [gpcShiftApply_applied nLines isz1 isz2 minGS rIS recon dx dy k st h1 h2]
    refine ⟨?_, ?_, ?_, ?_, ?_⟩
    · rw [readOr_writeStepK]
      have hro : readOr ({ writeOrK st k
            (fun m => ((readOr st k m).1 + dx, (readOr st k m).2 + dy)) with
          images := Function.update st.images k
            (recon k (fun m => ((readOr st k m).1 + dx, (readOr st k m).2 + dy))),
          reconLog := st.reconLog ++ [k] } : GPCState Img)
          = readOr (writeOrK st k
            (fun m => ((readOr st k m).1 + dx, (readOr st k m).2 + dy))) := by
        unfold readOr writeOrK
        by_cases h : st.orRefB <;> simp [h]
      rw [hro, readOr_writeOrK, Function.update_same]
    · intro j hj
      rw [readOr_writeStepK]
      have hro : readOr ({ writeOrK st k
            (fun m => ((readOr st k m).1 + dx, (readOr st k m).2 + dy)) with
          images := Function.update st.images k
            (recon k (fun m => ((readOr st k m).1 + dx, (readOr st k m).2 + dy))),
          reconLog := st.reconLog ++ [k] } : GPCState Img)
          = readOr (writeOrK st k
            (fun m => ((readOr st k m).1 + dx, (readOr st k m).2 + dy))) := by
        unfold readOr writeOrK
        by_cases h : st.orRefB <;> simp [h]
      rw [hro, readOr_writeOrK, Function.update_noteq hj]
    · have hsr : (writeOrK st k
          (fun m => ((readOr st k m).1 + dx, (readOr st k m).2 + dy))).stepRefB
          = st.stepRefB := by
        unfold writeOrK
        by_cases h : st.orRefB <;> simp [h]
      unfold writeStepK
      rw [hsr]
      by_cases h : st.stepRefB <;> simp [h]
    · have hsr : (writeOrK st k
          (fun m => ((readOr st k m).1 + dx, (readOr st k m).2 + dy))).stepRefB
          = st.stepRefB := by
        unfold writeOrK
        by_cases h : st.orRefB <;> simp [h]
      unfold writeStepK
      rw [hsr]
      by_cases h : st.stepRefB <;> simp [h]
    · rw [readStep_writeStepK, Function.update_same]
  · intro hn
    simp only [gpcShiftApply]
    dsimp only
    by_cases h1 : |dx| + |dy| > minGS
    · rw [if_pos h1]
      rw [if_neg (fun h2 => hn ⟨h1, h2⟩)]
    · rw [if_neg h1]

/-- C6 as stated is false on the code: with a 10 by 10 image, threshold 1
and detected shift (-2, 0) from origins (2, 3), the translated origin x
equals 0, violating the claimed one-pixel lower margin, yet the code
applies the shift: the origin moves to (0, 3) and the step size is reset
to 1/2. -/
theorem C6_counterexample :
    callerScanOr (gpcShiftApply 1 10 10 1 (1 / 2) (fun _ _ => (0 : ℚ)) (-2, 0) 1
        exGPCState) 1 0 = (0, 3) ∧
    readStep (gpcShiftApply 1 10 10 1 (1 / 2) (fun _ _ => (0 : ℚ)) (-2, 0) 1
        exGPCState) 1 0 = 1 / 2 ∧
    ¬ specMarginCond 1 10 10 1 (-2) 0 (fun m => readOr exGPCState 1 m) := by
  refine ⟨?_, ?_, ?_⟩
  · norm_num [gpcShiftApply, exGPCState, writeOrK, writeStepK, readOr,
      callerScanOr, Function.update]
  · norm_num [gpcShiftApply, exGPCState, writeOrK, writeStepK, readOr, readStep,
      Function.update]
  · intro h
    have hm := (h.2 0 (by norm_num)).1
    norm_num [readOr, exGPCState] at hm

/-- Witness for the amended C6 at a concrete accepted shift: origin (2, 3)
moves to (4, 3) and the step size resets to 1/2. -/
theorem C6_shift_apply_amended_witness :
    readOr (gpcShiftApply 1 10 10 1 (1 / 2) (fun _ _ => (0 : ℚ)) (2, 0) 1
        exGPCState) 1
      = (fun m => ((readOr exGPCState 1 m).1 + 2, (readOr exGPCState 1 m).2 + 0)) ∧
    readStep (gpcShiftApply 1 10 10 1 (1 / 2) (fun _ _ => (0 : ℚ)) (2, 0) 1
        exGPCState) 1 = fun _ => 1 / 2 := by
  have h := (C6_shift_apply_amended 1 10 10 1 (1 / 2) (fun _ _ => (0 : ℚ)) 2 0 1
    exGPCState).1 ⟨by norm_num, by norm_num [readOr, exGPCState]⟩
  exact ⟨h.1, h.2.2.2.2⟩

/-- C1 at the failing input: a shift is accepted for acquisition 1 (its
caller-visible step size is reset to 1/2), the metric check then rejects
the pass and the rollback branch runs (both rebinding flags are set); the
caller-visible origins are restored to the snapshot (2, 3), but the
caller-visible step size stays at the reset value 1/2 instead of the
snapshot value 1, because line 443 of the source rebinds the local name
scanOrStep without writing through the array the caller passed in. -/
theorem C1_rollback_step_not_restored :
    gpcPassRejected.stepRefB = true ∧
    callerScanOr gpcPassRejected 1 0 = (2, 3) ∧
    callerStep gpcPassRejected 1 0 = 1 / 2 ∧
    callerStep gpcPassRejected 1 0 ≠ 1 := by
  refine ⟨?_, ?_, ?_, ?_⟩ <;>
    norm_num [gpcPassRejected, gpcPass, vecAlignOf, gpcShiftApply, gpcCheck,
      writeOrK, writeStepK, readOr, readStep, callerScanOr, callerStep,
      Function.update]

/-- C10: in a single-target correction pass whose shift for acquisition k
is accepted (threshold and bounds hold) and then rejected by the metric
check, the caller-visible origins are restored to the pre-pass snapshot,
but the image of acquisition k remains the one reconstructed from the
rejected shifted origins, the reconstruction log holds exactly the one
accept-branch entry (the rollback branch triggers no reconstruction), and
the caller-visible step sizes of k remain reset rather than restored. -/
theorem C10_rollback_frame {Img : Type} (nLines isz1 isz2 : ℕ)
    (minGS rIS : ℚ) (recon : ℕ → (ℕ → ℚ × ℚ) → Img) (metric : (ℕ → Img) → ℚ)
    (dx dy : ℚ) (k : ℕ) (scanOr0 : ℕ → ℕ → ℚ × ℚ) (step0 : ℕ → ℕ → ℚ)
    (images0 : ℕ → Img) (stats0 : ℕ → ℚ × ℚ) (mad : ℚ) (alignStep : ℕ)
    (hthr : |dx| + |dy| > minGS)
    (hbound : ∀ m ∈ Finset.range nLines,
      0 ≤ (scanOr0 k m).1 + dx ∧ (scanOr0 k m).1 + dx < (isz1 : ℚ) - 2 ∧
      0 ≤ (scanOr0 k m).2 + dy ∧ (scanOr0 k m).2 + dy < (isz2 : ℚ) - 2)
    (hrej : ¬(metric (Function.update images0 k
        (recon k (fun m => ((scanOr0 k m).1 + dx, (scanOr0 k m).2 + dy)))) < mad)) :
    callerScanOr (gpcPass nLines isz1 isz2 minGS rIS false recon metric
        (fun _ => (dx, dy)) [k] scanOr0 step0 images0 stats0 mad alignStep)
      = scanOr0 ∧
    (gpcPass nLines isz1 isz2 minGS rIS false recon metric
        (fun _ => (dx, dy)) [k] scanOr0 step0 images0 stats0 mad alignStep).images
      = Function.update images0 k
          (recon k (fun m => ((scanOr0 k m).1 + dx, (scanOr0 k m).2 + dy))) ∧
    (gpcPass nLines isz1 isz2 minGS rIS false recon metric
        (fun _ => (dx, dy)) [k] scanOr0 step0 images0 stats0 mad alignStep).reconLog
      = [k] ∧
    callerStep (gpcPass nLines isz1 isz2 minGS rIS false recon metric
        (fun _ => (dx, dy)) [k] scanOr0 step0 images0 stats0 mad alignStep)
      = Function.update step0 k (fun _ => rIS) := by
  simp only [gpcPass, List.foldl]
  rw [gpcShiftApply_applied nLines isz1 isz2 minGS rIS recon dx dy k
    { orA := scanOr0, orB := scanOr0, orRefB := false, stepA := step0,
      stepB := step0, stepRefB := false, images := images0, stats := stats0,
      reconLog := [] } hthr hbound]
  rw [gpcCheck_reject metric mad mad alignStep _ hrej]
  exact ⟨rfl, rfl, rfl, rfl⟩

/-- Witness for C10 at the concrete rejected pass: snapshot origins
restored, image slot 1 reconstructed from the shifted origins, exactly one
reconstruction. -/
theorem C10_rollback_frame_witness :
    callerScanOr (gpcPass 1 10 10 1 (1 / 2) false (fun _ _ => (5 : ℚ))
        (fun imgs => imgs 1) (fun _ => (2, 0)) [1] (fun _ _ => (2, 3))
        (fun _ _ => 1) (fun _ => 0) (fun _ => (0, 0)) 3 1)
      = (fun _ _ => (2, 3)) ∧
    (gpcPass 1 10 10 1 (1 / 2) false (fun _ _ => (5 : ℚ))
        (fun imgs => imgs 1) (fun _ => (2, 0)) [1] (fun _ _ => (2, 3))
        (fun _ _ => 1) (fun _ => 0) (fun _ => (0, 0)) 3 1).reconLog = [1] := by
  have h := C10_rollback_frame 1 10 10 1 (1 / 2) (fun _ _ => (5 : ℚ))
    (fun imgs => imgs 1) 2 0 1 (fun _ _ => (2, 3)) (fun _ _ => 1)
    (fun _ => 0) (fun _ => (0, 0)) 3 1 (by norm_num) (by norm_num)
    (by norm_num [Function.update])
  exact ⟨h.1, h.2.2.1⟩

end SDC
